import Mathlib

/-!
Shallow embedding of `duplicate_finder.py` (vweaver/duplicate-images):
the fingerprint engine (`hash_file`), the store operations
(`_add_to_database`, `remove_image`, `clear`), the duplicate grouper
(`find` / `same_time`), and the dedup executor (`dedup` /
`do_delete_picture`), together with theorems about them.
-/

namespace DupImages

/-! ## Path utilities (os.path) -/

/-- Collapse runs of consecutive `'/'` characters; the flag records whether
the previous kept character was a slash.  Models Linux pathname resolution,
under which `"//a/b"` and `"/a/b"` name the same file. -/
def squashSlashes : Bool → List Char → List Char
  | _, [] => []
  | prevSlash, c :: rest =>
    if c = '/' then
      if prevSlash then squashSlashes true rest
      else c :: squashSlashes true rest
    else c :: squashSlashes false rest

/-- Normal form of a path: consecutive slashes collapsed. -/
def pathNorm (s : String) : String := ⟨squashSlashes false s.data⟩

/-- `os.path.basename`: everything after the last `'/'`. -/
def basename (s : String) : String :=
  ⟨(s.data.reverse.takeWhile (fun c => c ≠ '/')).reverse⟩

/-- The module-level `TRASH` constant of `duplicate_finder.py`. -/
def TRASH : String := "./Trash/"

/-! ## Images and the rotation-sorted fingerprint (`hash_file`, lines 104-134) -/

/-- `PIL.Image.rotate(90, expand=True)` on an `h × w` pixel grid: an exact
90-degree counterclockwise rotation, yielding a `w × h` grid. -/
def rot90 {h w : Nat} (M : Matrix (Fin h) (Fin w) Nat) : Matrix (Fin w) (Fin h) Nat :=
  fun i j => M j i.rev

/-- A PIL image as `hash_file` sees it: a pixel grid plus the optional EXIF
`DateTimeOriginal` entry. -/
structure PImage where
  h : Nat
  w : Nat
  mat : Matrix (Fin h) (Fin w) Nat
  exif : Option String

/-- `img.rotate(90, expand=True)` at the image level. -/
def PImage.rotate90 (img : PImage) : PImage :=
  ⟨img.w, img.h, rot90 img.mat, img.exif⟩

/-- Code-point lexicographic comparison of character lists: Python's string
order. -/
def charListLe : List Char → List Char → Bool
  | [], _ => true
  | _ :: _, [] => false
  | a :: as, b :: bs => if a = b then charListLe as bs else decide (a < b)

/-- Python's `s1 <= s2` on strings: lexicographic by code point. -/
def strLeRel (a b : String) : Prop := charListLe a.data b.data = true

instance : DecidableRel strLeRel := fun a b =>
  inferInstanceAs (Decidable (charListLe a.data b.data = true))

theorem charListLe_total : ∀ a b : List Char, charListLe a b = true ∨ charListLe b a = true
  | [], _ => Or.inl rfl
  | _ :: _, [] => Or.inr rfl
  | a :: as, b :: bs => by
    by_cases hab : a = b
    · subst hab
      simpa [charListLe] using charListLe_total as bs
    · rcases lt_or_gt_of_ne hab with h | h
      · exact Or.inl (by simp [charListLe, hab, h])
      · exact Or.inr (by simp [charListLe, Ne.symm hab, h])

theorem charListLe_trans :
    ∀ {a b c : List Char}, charListLe a b = true → charListLe b c = true →
      charListLe a c = true
  | [], _, _, _, _ => rfl
  | _ :: _, [], _, h1, _ => absurd h1 (by simp [charListLe])
  | _ :: _, _ :: _, [], _, h2 => absurd h2 (by simp [charListLe])
  | a :: as, b :: bs, c :: cs, h1, h2 => by
    by_cases hab : a = b <;> by_cases hbc : b = c
    · subst hab; subst hbc
      simp only [charListLe, if_pos rfl] at h1 h2 ⊢
      exact charListLe_trans h1 h2
    · subst hab
      simp only [charListLe, if_pos rfl, if_neg hbc] at h1 h2 ⊢
      exact h2
    · subst hbc
      simp only [charListLe, if_pos rfl, if_neg hab] at h1 h2 ⊢
      exact h1
    · simp only [charListLe, if_neg hab, if_neg hbc, decide_eq_true_eq] at h1 h2
      have hac : a < c := lt_trans h1 h2
      simp [charListLe, ne_of_lt hac, hac]

theorem charListLe_antisymm :
    ∀ {a b : List Char}, charListLe a b = true → charListLe b a = true → a = b
  | [], [], _, _ => rfl
  | [], _ :: _, _, h2 => absurd h2 (by simp [charListLe])
  | _ :: _, [], h1, _ => absurd h1 (by simp [charListLe])
  | a :: as, b :: bs, h1, h2 => by
    by_cases hab : a = b
    · subst hab
      simp only [charListLe, if_pos rfl] at h1 h2
      rw [charListLe_antisymm h1 h2]
    · simp only [charListLe, if_neg hab, if_neg (Ne.symm hab), decide_eq_true_eq] at h1 h2
      exact absurd h2 (lt_asymm h1)

instance : IsTotal String strLeRel := ⟨fun a b => charListLe_total a.data b.data⟩

instance : IsTrans String strLeRel := ⟨fun _ _ _ => charListLe_trans⟩

instance : IsAntisymm String strLeRel :=
  ⟨fun a b h1 h2 => by
    cases a; cases b
    exact congrArg String.mk (charListLe_antisymm h1 h2)⟩

/-- Python's `''.join(sorted(hashes))`: sort the strings lexically, then
concatenate. -/
def joinSorted (l : List String) : String :=
  String.join (l.insertionSort strLeRel)

/-- The type of the perceptual-hash function (`imagehash.phash` rendered with
`str`): a deterministic function of the pixel grid.  `hash_file` is proved
for every such function. -/
def PHash : Type := {h w : Nat} → Matrix (Fin h) (Fin w) Nat → String

/-- The four hash strings `hash_file` appends: the image at 0 degrees, then
after each of three successive 90-degree rotations. -/
def phashes (p : PHash) (img : PImage) : List String :=
  [p img.mat, p (rot90 img.mat), p (rot90 (rot90 img.mat)),
   p (rot90 (rot90 (rot90 img.mat)))]

/-- `hashes = ''.join(sorted(hashes))` of `hash_file`. -/
def fingerprint (p : PHash) (img : PImage) : String :=
  joinSorted (phashes p img)

theorem rot90_rot90_rot90_rot90 {h w : Nat} (M : Matrix (Fin h) (Fin w) Nat) :
    rot90 (rot90 (rot90 (rot90 M))) = M := by
  funext i j
  simp [rot90, Fin.rev_rev]

theorem PImage.rotate90_four (img : PImage) :
    img.rotate90.rotate90.rotate90.rotate90 = img := by
  cases img with
  | mk h w mat exif =>
    show PImage.mk h w (rot90 (rot90 (rot90 (rot90 mat)))) exif = PImage.mk h w mat exif
    rw [rot90_rot90_rot90_rot90]

theorem joinSorted_perm {l₁ l₂ : List String} (hp : l₁.Perm l₂) :
    joinSorted l₁ = joinSorted l₂ := by
  unfold joinSorted
  have hq : (l₁.insertionSort strLeRel).Perm (l₂.insertionSort strLeRel) :=
    (List.perm_insertionSort _ l₁).trans (hp.trans (List.perm_insertionSort _ l₂).symm)
  have s₁ := List.sorted_insertionSort strLeRel l₁
  have s₂ := List.sorted_insertionSort strLeRel l₂
  exact congrArg String.join (List.eq_of_perm_of_sorted hq s₁ s₂)

theorem phashes_rotate90_perm (p : PHash) (img : PImage) :
    (phashes p img.rotate90).Perm (phashes p img) := by
  have h4 : p (rot90 (rot90 (rot90 (rot90 img.mat)))) = p img.mat := by
    rw [rot90_rot90_rot90_rot90]
  show List.Perm
    [p (rot90 img.mat), p (rot90 (rot90 img.mat)), p (rot90 (rot90 (rot90 img.mat))),
     p (rot90 (rot90 (rot90 (rot90 img.mat))))]
    [p img.mat, p (rot90 img.mat), p (rot90 (rot90 img.mat)), p (rot90 (rot90 (rot90 img.mat)))]
  rw [h4]
  have hperm := @List.perm_append_comm String
    [p (rot90 img.mat), p (rot90 (rot90 img.mat)), p (rot90 (rot90 (rot90 img.mat)))]
    [p img.mat]
  simpa using hperm

theorem fingerprint_rotate90 (p : PHash) (img : PImage) :
    fingerprint p img.rotate90 = fingerprint p img :=
  joinSorted_perm (phashes_rotate90_perm p img)

/-! ## The store (Mongo `images` collection: one document per file, `_id` = path) -/

/-- One stored document, as `_add_to_database` inserts it. -/
structure ImageRec where
  path : String
  hash : String
  file_size : Nat
  image_size : String
  capture_time : String
deriving DecidableEq, Repr

/-- The collection: documents in insertion order. -/
abbrev Store : Type := List ImageRec

/-- `db.count({"_id": file}) > 0`. -/
def in_database (file : String) (db : Store) : Bool :=
  db.any (fun r => r.path = file)

/-- `_add_to_database`: `insert_one` appends the document; a
`DuplicateKeyError` (the `_id` already present) is caught and the store is
left unchanged. -/
def add_to_database (file_ hash_ : String) (file_size : Nat)
    (image_size capture_time : String) (db : Store) : Store :=
  if in_database file_ db then db
  else db ++ [⟨file_, hash_, file_size, image_size, capture_time⟩]

/-- `remove_image`: `db.delete_one({'_id': file})` removes the first (hence,
keys being unique, the only) document with that `_id`; no-op when absent. -/
def remove_image (file : String) (db : Store) : Store :=
  db.eraseP (fun r => r.path = file)

/-- `clear`: `db.drop()`. -/
def clear (_ : Store) : Store := []

/-! ## The filesystem and the hashing pipeline -/

/-- The environment the program runs against: the directory walk
(`get_image_files`, already extension-filtered and absolute), `Image.open`
(`none` = the `OSError` of an unreadable image), `get_file_size` (which
already maps a vanished file to 0), the set of existing regular files, and
an oracle for non-`FileNotFoundError` failures of `shutil.move`. -/
structure FS where
  imageFiles : String → List String
  openImg : String → Option PImage
  sizeOf : String → Nat
  files : List String
  ioFail : String → Bool

/-- `os.path.exists`, modulo slash collapsing. -/
def fileExists (fs : FS) (p : String) : Bool :=
  fs.files.any (fun q => pathNorm q = pathNorm p)

/-- `get_capture_time`: the EXIF `DateTimeOriginal`, else `"Time unknown"`. -/
def get_capture_time (img : PImage) : String := img.exif.getD "Time unknown"

/-- `get_image_size`: `"{} x {}".format(*img.size)`, i.e. width, `" x "`, height. -/
def get_image_size (img : PImage) : String :=
  toString img.w ++ " x " ++ toString img.h

/-- `hash_file` (lines 104-134): open the image — `OSError` yields `None` —
then record path, the rotation-sorted fingerprint, file size, image size and
capture time. -/
def hash_file (p : PHash) (fs : FS) (file : String) : Option ImageRec :=
  match fs.openImg file with
  | none => none
  | some img =>
      some ⟨file, fingerprint p img, fs.sizeOf file,
            get_image_size img, get_capture_time img⟩

/-- `hash_files_parallel`: `executor.map` yields one result per input file in
input order; the generator drops the `None`s. -/
def hash_files_parallel (p : PHash) (fs : FS) (files : List String) : List ImageRec :=
  (files.map (hash_file p fs)).filterMap id

/-- `new_image_files`: keep only the files not yet in the database. -/
def new_image_files (files : List String) (db : Store) : List String :=
  files.filter (fun f => !(in_database f db))

/-- Insert one `hash_file` result (`_add_to_database(*result, db=db)`). -/
def addRec (db : Store) (r : ImageRec) : Store :=
  add_to_database r.path r.hash r.file_size r.image_size r.capture_time db

/-- One iteration of `add`'s outer loop: walk the path, filter the files
already tracked, hash the rest, insert the results.  Also returns the list
of files handed to the hasher (the hashing work performed). -/
def addPath (p : PHash) (fs : FS) (db : Store) (path : String) : Store × List String :=
  let newFiles := new_image_files (fs.imageFiles path) db
  ((hash_files_parallel p fs newFiles).foldl addRec db, newFiles)

/-- `add(paths, db)`: process the paths in order; the store grows as results
are inserted.  The second component collects every file sent to hashing. -/
def add (p : PHash) (fs : FS) (paths : List String) (db : Store) : Store × List String :=
  paths.foldl
    (fun acc path =>
      let step := addPath p fs acc.1 path
      (step.1, acc.2 ++ step.2))
    (db, [])

/-- `remove(paths, db)`: untrack every image file found under each path. -/
def remove (fs : FS) (paths : List String) (db : Store) : Store :=
  paths.foldl (fun db' path => (fs.imageFiles path).foldl (fun d f => remove_image f d) db') db

/-! ## The duplicate grouper (`find` / `same_time`, lines 202-240) -/

/-- One element of a group's `items` array, as the `$push` stage projects it. -/
structure Item where
  file_name : String
  file_size : Nat
  image_size : String
  capture_time : String
deriving DecidableEq, Repr

/-- One output document of the `$group` stage. -/
structure Dup where
  hash : String
  total : Nat
  items : List Item
deriving DecidableEq, Repr

/-- The `$push` projection of one stored document. -/
def recItem (r : ImageRec) : Item :=
  ⟨r.path, r.file_size, r.image_size, r.capture_time⟩

/-- The group the aggregation emits for one fingerprint value: every
document with that `hash`, in store order, with `total` its `$sum: 1`. -/
def groupFor (db : Store) (h : String) : Dup :=
  let its := (db.filter (fun r => r.hash = h)).map recItem
  ⟨h, its.length, its⟩

/-- The `$group` stage: one group per distinct `hash` value. -/
def group_by_hash (db : Store) : List Dup :=
  ((db.map (fun r => r.hash)).dedup).map (groupFor db)

/-- Python's `item == "Time unknown"` where `item` is a dict: comparing a
dict with a str is always `False`. -/
def itemEqStr (_ : Item) (_ : String) : Bool := false

/-- `same_time` (lines 202-211), verbatim: the sentinel test is
`"Time unknown" in items`, a membership test of the string against the
item dicts themselves, then groups with more than one distinct
`capture_time` are rejected. -/
def same_time (dup : Dup) : Bool :=
  if dup.items.any (fun i => itemEqStr i "Time unknown") then true
  else if 1 < ((dup.items.map (fun i => i.capture_time)).dedup).length then false
  else true

/-- `find(db, match_time)` (lines 214-240): aggregate, `$match` the groups
with `total > 1`, then, when asked, keep only the `same_time` groups. -/
def find (db : Store) (match_time : Bool) : List Dup :=
  let dups := (group_by_hash db).filter (fun d => 1 < d.total)
  if match_time then dups.filter same_time else dups

/-! ## The dedup executor (`dedup` / `do_delete_picture`, lines 243-272) -/

/-- Why a `shutil.move` failed. -/
inductive MoveErr where
  | notFound
  | ioError
deriving DecidableEq, Repr

/-- `shutil.move(src, dst)`: `FileNotFoundError` when the source does not
exist; any other I/O failure per the oracle; otherwise the file now lives at
the destination (a basename collision in the trash overwrites silently). -/
def moveFile (fs : FS) (src dst : String) : Except MoveErr FS :=
  if fileExists fs src then
    if fs.ioFail (pathNorm src) then .error .ioError
    else .ok { fs with
      files := (fs.files.filter (fun q => !(pathNorm q = pathNorm src))) ++ [dst] }
  else .error .notFound

/-- `do_delete_picture(file_name, delete_cb)` (lines 255-272): prepend `"/"`
to the file name, move that path into the trash under its basename, and only
on success invoke the deletion callback with the slash-prefixed name; any
failure is caught and reported as the string `"False"`.  (The creation of
the trash directory has no further observable effect and is not modelled.)
Returns the result string, the filesystem, and the store the callback acted
on. -/
def do_delete_picture (cb : String → Store → Store) (fs : FS) (db : Store)
    (file_name0 : String) : String × FS × Store :=
  let file_name := "/" ++ file_name0
  match moveFile fs file_name (TRASH ++ basename file_name) with
  | .ok fs' => ("True", fs', cb file_name db)
  | .error _ => ("False", fs, db)

/-- What a `dedup` run leaves behind: the filesystem, the store, the
per-candidate result strings (`retrn_dups`), and the Python return value —
`none`, since `dedup` only prints its summary and has no return statement. -/
structure DedupOut where
  fs : FS
  db : Store
  results : List String
  ret : Option (Nat × Nat)

/-- The numerator of the printed summary: `retrn_dups.count("True")`. -/
def DedupOut.deleted (o : DedupOut) : Nat := o.results.countP (fun s => s = "True")

/-- The denominator of the printed summary: `len(retrn_dups)`. -/
def DedupOut.total (o : DedupOut) : Nat := o.results.length

/-- One deletion candidate: `do_delete_picture(x['file_name'], cb)` with
`cb = partial(remove_image, db=db)`, its result string appended to
`retrn_dups`. -/
def dedupItem (a : FS × Store × List String) (it : Item) : FS × Store × List String :=
  let step := do_delete_picture (fun pth s => remove_image pth s) a.1 a.2.1 it.file_name
  (step.2.1, step.2.2, a.2.2 ++ [step.1])

/-- Process one group: every item but the first is a deletion candidate,
attempted in order. -/
def dedupGroup (acc : FS × Store × List String) (d : Dup) : FS × Store × List String :=
  (d.items.drop 1).foldl dedupItem acc

/-- `dedup(db, match_time)` (lines 243-252): compute the groups once, then
delete the non-retained items group by group. -/
def dedup (fs : FS) (db : Store) (match_time : Bool) : DedupOut :=
  let dups := find db match_time
  let fin := dups.foldl dedupGroup (fs, db, [])
  ⟨fin.1, fin.2.1, fin.2.2, none⟩

/-! ## Supporting lemmas -/

/-- The `_id`s of the stored documents. -/
def keys (db : Store) : List String := db.map (fun r => r.path)

/-- The document stored under a path, if any. -/
def lookup (pth : String) (db : Store) : Option ImageRec :=
  db.find? (fun r => r.path = pth)

theorem slash_ne (f : String) : "/" ++ f ≠ f := by
  intro h
  have hl := congrArg String.length h
  rw [String.length_append] at hl
  have h1 : ("/" : String).length = 1 := rfl
  rw [h1] at hl
  omega

theorem addRec_of_in_database {db : Store} {r : ImageRec}
    (h : in_database r.path db = true) : addRec db r = db := by
  simp [addRec, add_to_database, h]

theorem in_database_addRec {q : String} {db : Store} (r : ImageRec)
    (h : in_database q db = true) : in_database q (addRec db r) = true := by
  unfold addRec add_to_database
  split
  · exact h
  · simp [in_database] at h ⊢
    exact Or.inl h

theorem lookup_addRec {q : String} {db : Store} (r : ImageRec)
    (h : in_database q db = true) : lookup q (addRec db r) = lookup q db := by
  unfold addRec add_to_database
  split
  · rfl
  · unfold lookup
    rw [List.find?_append]
    have hs : (db.find? (fun r' => r'.path = q)).isSome := by
      simp only [in_database, List.any_eq_true] at h
      simpa [List.find?_isSome] using h
    obtain ⟨v, hv⟩ := Option.isSome_iff_exists.mp hs
    rw [hv]
    rfl

theorem in_database_addRec_of_ne {q : String} {db : Store} {r : ImageRec}
    (h : r.path ≠ q) : in_database q (addRec db r) = in_database q db := by
  unfold addRec add_to_database
  split
  · rfl
  · simp [in_database, h]

theorem keys_nodup_addRec {db : Store} (r : ImageRec)
    (h : (keys db).Nodup) : (keys (addRec db r)).Nodup := by
  unfold addRec add_to_database
  split
  · exact h
  next hmem =>
    show ((db ++ [(⟨r.path, r.hash, r.file_size, r.image_size, r.capture_time⟩ : ImageRec)]).map
      (fun s => s.path)).Nodup
    simp only [List.map_append, List.map_cons, List.map_nil]
    rw [List.nodup_append]
    refine ⟨h, List.nodup_singleton _, ?_⟩
    intro a ha hb
    rw [List.mem_singleton] at hb
    subst hb
    apply hmem
    simp only [List.mem_map] at ha
    obtain ⟨x, hx, hpx⟩ := ha
    simp only [in_database, List.any_eq_true]
    exact ⟨x, hx, by simp [hpx]⟩

theorem keys_nodup_foldl_addRec (rs : List ImageRec) {db : Store}
    (h : (keys db).Nodup) : (keys (rs.foldl addRec db)).Nodup := by
  induction rs generalizing db with
  | nil => exact h
  | cons r rs ih => exact ih (keys_nodup_addRec r h)

theorem in_database_foldl_addRec (rs : List ImageRec) {q : String} {db : Store}
    (h : in_database q db = true) :
    in_database q (rs.foldl addRec db) = true := by
  induction rs generalizing db with
  | nil => exact h
  | cons r rs ih => exact ih (in_database_addRec r h)

theorem lookup_foldl_addRec (rs : List ImageRec) {q : String} {db : Store}
    (h : in_database q db = true) :
    lookup q (rs.foldl addRec db) = lookup q db := by
  induction rs generalizing db with
  | nil => rfl
  | cons r rs ih =>
    rw [List.foldl_cons, ih (in_database_addRec r h), lookup_addRec r h]

theorem in_database_foldl_addRec_of_ne (rs : List ImageRec) {q : String} {db : Store}
    (h : ∀ r ∈ rs, r.path ≠ q) :
    in_database q (rs.foldl addRec db) = in_database q db := by
  induction rs generalizing db with
  | nil => rfl
  | cons r rs ih =>
    rw [List.foldl_cons, ih (fun r' hr' => h r' (List.mem_cons_of_mem _ hr')),
      in_database_addRec_of_ne (h r (List.mem_cons_self _ _))]

theorem keys_nodup_remove_image (f : String) {db : Store}
    (h : (keys db).Nodup) : (keys (remove_image f db)).Nodup := by
  have hk : ((remove_image f db).map (fun r => r.path)).Sublist
      (db.map (fun r => r.path)) :=
    (List.eraseP_sublist db).map (fun r => r.path)
  exact List.Nodup.sublist hk h

theorem hash_file_path {p : PHash} {fs : FS} {f : String} {r : ImageRec}
    (h : hash_file p fs f = some r) : r.path = f := by
  unfold hash_file at h
  cases hopen : fs.openImg f with
  | none => rw [hopen] at h; exact absurd h (by simp)
  | some img => rw [hopen] at h; cases h; rfl

theorem hash_file_readable {p : PHash} {fs : FS} {f : String} {r : ImageRec}
    (h : hash_file p fs f = some r) : fs.openImg f ≠ none := by
  unfold hash_file at h
  cases hopen : fs.openImg f with
  | none => rw [hopen] at h; exact absurd h (by simp)
  | some img => simp [hopen]

theorem mem_hash_files_parallel {p : PHash} {fs : FS} {files : List String} {r : ImageRec} :
    r ∈ hash_files_parallel p fs files ↔ ∃ f ∈ files, hash_file p fs f = some r := by
  rw [hash_files_parallel, List.mem_filterMap]
  constructor
  · rintro ⟨o, ho, hor⟩
    rw [List.mem_map] at ho
    obtain ⟨f, hf, hfo⟩ := ho
    exact ⟨f, hf, by rw [hfo]; exact hor⟩
  · rintro ⟨f, hf, h⟩
    exact ⟨some r, List.mem_map.mpr ⟨f, hf, h⟩, rfl⟩

theorem moveFile_notFound {fs : FS} {src : String} (dst : String)
    (h : fileExists fs src = false) : moveFile fs src dst = .error .notFound := by
  simp [moveFile, h]

theorem do_delete_picture_ok {fs fs' : FS} (cb : String → Store → Store)
    (db : Store) (f : String)
    (h : moveFile fs ("/" ++ f) (TRASH ++ basename ("/" ++ f)) = .ok fs') :
    do_delete_picture cb fs db f = ("True", fs', cb ("/" ++ f) db) := by
  simp [do_delete_picture, h]

theorem do_delete_picture_err {fs : FS} {e : MoveErr} (cb : String → Store → Store)
    (db : Store) (f : String)
    (h : moveFile fs ("/" ++ f) (TRASH ++ basename ("/" ++ f)) = .error e) :
    do_delete_picture cb fs db f = ("False", fs, db) := by
  simp [do_delete_picture, h]

theorem foldl_dedupItem_length (xs : List Item) (acc : FS × Store × List String) :
    ((xs.foldl dedupItem acc).2.2).length = acc.2.2.length + xs.length := by
  induction xs generalizing acc with
  | nil => simp
  | cons x xs ih =>
    rw [List.foldl_cons, ih]
    simp [dedupItem]
    omega

theorem dedupGroup_length (acc : FS × Store × List String) (d : Dup) :
    ((dedupGroup acc d).2.2).length = acc.2.2.length + (d.items.length - 1) := by
  rw [dedupGroup, foldl_dedupItem_length, List.length_drop]

theorem foldl_dedupGroup_length (ds : List Dup) (acc : FS × Store × List String) :
    ((ds.foldl dedupGroup acc).2.2).length
      = acc.2.2.length + (ds.map (fun d => d.items.length - 1)).sum := by
  induction ds generalizing acc with
  | nil => simp
  | cons d ds ih =>
    rw [List.foldl_cons, ih, dedupGroup_length]
    simp
    omega

/-- The store component of `add` ignores the accumulated hashed-file list. -/
theorem add_fold_fst (p : PHash) (fs : FS) (paths : List String)
    (db : Store) (acc : List String) :
    (paths.foldl
      (fun acc path =>
        let step := addPath p fs acc.1 path
        (step.1, acc.2 ++ step.2)) (db, acc)).1
    = paths.foldl (fun d path => (addPath p fs d path).1) db := by
  induction paths generalizing db acc with
  | nil => rfl
  | cons pth paths ih => rw [List.foldl_cons, List.foldl_cons, ih]

theorem keys_nodup_addPath (p : PHash) (fs : FS) {db : Store} (path : String)
    (h : (keys db).Nodup) : (keys (addPath p fs db path).1).Nodup :=
  keys_nodup_foldl_addRec _ h

theorem keys_nodup_add (p : PHash) (fs : FS) (paths : List String) {db : Store}
    (h : (keys db).Nodup) : (keys (add p fs paths db).1).Nodup := by
  rw [add, add_fold_fst]
  induction paths generalizing db with
  | nil => exact h
  | cons pth paths ih => exact ih (keys_nodup_addPath p fs pth h)

theorem keys_nodup_remove (fs : FS) (paths : List String) {db : Store}
    (h : (keys db).Nodup) : (keys (remove fs paths db)).Nodup := by
  rw [remove]
  induction paths generalizing db with
  | nil => exact h
  | cons pth paths ih =>
    rw [List.foldl_cons]
    apply ih
    generalize fs.imageFiles pth = files
    induction files generalizing db with
    | nil => exact h
    | cons f files ihf => exact ihf (keys_nodup_remove_image f h)

theorem new_image_files_not_mem {files : List String} {db : Store} {q : String}
    (h : in_database q db = true) : q ∉ new_image_files files db := by
  intro hmem
  rw [new_image_files, List.mem_filter] at hmem
  rw [h] at hmem
  simp at hmem

theorem add_tracked_invariant (p : PHash) (fs : FS) (paths : List String)
    {db : Store} {acc : List String} {q : String}
    (h : in_database q db = true) (hq : q ∉ acc) :
    in_database q (paths.foldl
      (fun acc path =>
        let step := addPath p fs acc.1 path
        (step.1, acc.2 ++ step.2)) (db, acc)).1 = true
    ∧ lookup q (paths.foldl
      (fun acc path =>
        let step := addPath p fs acc.1 path
        (step.1, acc.2 ++ step.2)) (db, acc)).1 = lookup q db
    ∧ q ∉ (paths.foldl
      (fun acc path =>
        let step := addPath p fs acc.1 path
        (step.1, acc.2 ++ step.2)) (db, acc)).2 := by
  induction paths generalizing db acc with
  | nil => exact ⟨h, rfl, hq⟩
  | cons pth paths ih =>
    rw [List.foldl_cons]
    have h' : in_database q (addPath p fs db pth).1 = true :=
      in_database_foldl_addRec _ h
    have hl : lookup q (addPath p fs db pth).1 = lookup q db :=
      lookup_foldl_addRec _ h
    have hq' : q ∉ acc ++ (addPath p fs db pth).2 := by
      rw [List.mem_append]
      rintro (hc | hc)
      · exact hq hc
      · exact new_image_files_not_mem h hc
    obtain ⟨h1, h2, h3⟩ := ih h' hq'
    exact ⟨h1, h2.trans hl, h3⟩

theorem add_unreadable_invariant (p : PHash) (fs : FS) (paths : List String)
    {db : Store} {q : String} (h : fs.openImg q = none) :
    in_database q (add p fs paths db).1 = in_database q db := by
  rw [add, add_fold_fst]
  induction paths generalizing db with
  | nil => rfl
  | cons pth paths ih =>
    rw [List.foldl_cons]
    have hne : ∀ r ∈ hash_files_parallel p fs (new_image_files (fs.imageFiles pth) db),
        r.path ≠ q := by
      intro r hr hpq
      obtain ⟨f, _, hsome⟩ := mem_hash_files_parallel.mp hr
      have hpf : r.path = f := hash_file_path hsome
      apply hash_file_readable hsome
      rw [← hpf, hpq]
      exact h
    rw [ih]
    exact in_database_foldl_addRec_of_ne _ hne

/-! ## Operation sequences over the store -/

/-- The store-mutating operations of the command surface. -/
inductive Op where
  | add (paths : List String)
  | remove (paths : List String)
  | clear

/-- Run one operation against the store. -/
def runOp (p : PHash) (fs : FS) (db : Store) : Op → Store
  | .add paths => (DupImages.add p fs paths db).1
  | .remove paths => DupImages.remove fs paths db
  | .clear => clear db

/-- Run a sequence of operations starting from the empty store. -/
def runOps (p : PHash) (fs : FS) (ops : List Op) : Store :=
  ops.foldl (runOp p fs) []

theorem keys_nodup_runOp (p : PHash) (fs : FS) {db : Store} (op : Op)
    (h : (keys db).Nodup) : (keys (runOp p fs db op)).Nodup := by
  cases op with
  | add paths => exact keys_nodup_add p fs paths h
  | remove paths => exact keys_nodup_remove fs paths h
  | clear => simp [runOp, clear, keys]

theorem keys_nodup_runOps (p : PHash) (fs : FS) (ops : List Op) :
    (keys (runOps p fs ops)).Nodup := by
  rw [runOps]
  have hstart : (keys ([] : Store)).Nodup := by simp [keys]
  generalize hdb : ([] : Store) = db at hstart ⊢
  clear hdb
  induction ops generalizing db with
  | nil => exact hstart
  | cons op ops ih => exact ih _ (keys_nodup_runOp p fs op hstart)

/-! ## Concrete fixtures -/

/-- A concrete perceptual hash: constant `"ph"` on every grid. -/
def phC : PHash := fun {_h _w} _ => "ph"

/-- A 1-by-1 image carrying a capture time. -/
def img1 : PImage := ⟨1, 1, fun _ _ => 0, some "2020-01-01"⟩

/-- A record with the metadata the concrete stores share. -/
def rec0 (pth hsh ct : String) : ImageRec := ⟨pth, hsh, 0, "1 x 1", ct⟩

/-- A filesystem that only answers existence and move queries. -/
def mkFS (files : List String) (iof : String → Bool) : FS :=
  ⟨fun _ => [], fun _ => none, fun _ => 0, files, iof⟩

/-- Two records with one fingerprint whose capture times are a date and the
`"Time unknown"` sentinel. -/
def dbC1 : Store :=
  [rec0 "/p/a.jpg" "H" "2020-01-01", rec0 "/p/b.jpg" "H" "Time unknown"]

/-- Five records in two duplicate groups of sizes 3 and 2. -/
def dbC2 : Store :=
  [rec0 "/a/1.jpg" "G1" "t", rec0 "/a/2.jpg" "G1" "t", rec0 "/a/3.jpg" "G1" "t",
   rec0 "/b/4.jpg" "G2" "t", rec0 "/b/5.jpg" "G2" "t"]

/-- All five files of `dbC2` exist and no move fails for an I/O reason. -/
def fsC2 : FS :=
  mkFS ["/a/1.jpg", "/a/2.jpg", "/a/3.jpg", "/b/4.jpg", "/b/5.jpg"] (fun _ => false)

/-- A one-group store for the return-value check. -/
def dbC3 : Store := [rec0 "/c/1.jpg" "H" "t", rec0 "/c/2.jpg" "H" "t"]

/-- Both files of `dbC3` exist. -/
def fsC3 : FS := mkFS ["/c/1.jpg", "/c/2.jpg"] (fun _ => false)

/-- A filesystem whose walk of any path yields one readable image file. -/
def fsC5 : FS :=
  ⟨fun _ => ["/pics/a.jpg"], fun _ => some img1, fun _ => 7,
   ["/pics/a.jpg"], fun _ => false⟩

/-- The store `add` builds from `fsC5`: `phC` hashes every rotation to
`"ph"`, so the sorted-concatenated fingerprint is `"phphphph"`. -/
def dbC5 : Store := [⟨"/pics/a.jpg", "phphphph", 7, "1 x 1", "2020-01-01"⟩]

/-- One duplicate group of four; the second record's file is missing, so the
failing candidate comes before two succeeding ones. -/
def dbC6 : Store :=
  [rec0 "/pics/a.jpg" "H" "t", rec0 "/pics/m.jpg" "H" "t",
   rec0 "/pics/c.jpg" "H" "t", rec0 "/pics/d.jpg" "H" "t"]

/-- `/pics/m.jpg` does not exist at delete time. -/
def fsC6 : FS := mkFS ["/pics/a.jpg", "/pics/c.jpg", "/pics/d.jpg"] (fun _ => false)

/-- Fingerprints `{A, A, A, B, C, C}`. -/
def dbC8 : Store :=
  [rec0 "/1" "A" "t", rec0 "/2" "A" "t", rec0 "/3" "A" "t",
   rec0 "/4" "B" "t", rec0 "/5" "C" "t", rec0 "/6" "C" "t"]

/-- The candidate's file is missing: deletion fails with `FileNotFoundError`. -/
def fsC9a : FS := mkFS [] (fun _ => false)

/-- The candidate's file exists but the move fails for another I/O reason. -/
def fsC9b : FS := mkFS ["/p/x.jpg"] (fun _ => true)

/-- One record for the failure-kind comparison. -/
def dbC9 : Store := [rec0 "/p/x.jpg" "H" "t"]

/-- Two records in one duplicate group, keyed by absolute paths. -/
def dbC10 : Store := [rec0 "/a/1.jpg" "H" "t", rec0 "/a/2.jpg" "H" "t"]

/-- Both files of `dbC10` exist. -/
def fsC10 : FS := mkFS ["/a/1.jpg", "/a/2.jpg"] (fun _ => false)

/-! ## Claim theorems -/

/-- C1: the sentinel clause of `same_time` never fires.  On a duplicate
group whose capture times are `2020-01-01` and `Time unknown`, `same_time`
is `false` and `find(db, match_time=True)` drops the group that
`find(db, match_time=False)` returns — the code tests
`"Time unknown" in items` against the item dicts themselves, never against
their `capture_time` fields, while its own comment ("better safe than
sorry") and the spec require the group to be kept. -/
theorem sentinel_group_dropped :
    same_time (groupFor dbC1 "H") = false
    ∧ (groupFor dbC1 "H").items.map (fun i => i.capture_time)
        = ["2020-01-01", "Time unknown"]
    ∧ find dbC1 false = [groupFor dbC1 "H"]
    ∧ find dbC1 true = [] := by
  exact ⟨rfl, rfl, rfl, rfl⟩

/-- C2: with two duplicate groups of sizes 3 and 2 and every move
succeeding, `dedup` moves the three candidate files out of place and prints
`deleted 3/3`, yet the store still holds all five records: the record
removal after a successful move uses the key `"/" + path`, which matches no
stored `_id`. -/
theorem dedup_keeps_all_records :
    (dedup fsC2 dbC2 false).deleted = 3
    ∧ (dedup fsC2 dbC2 false).total = 3
    ∧ (dedup fsC2 dbC2 false).db = dbC2
    ∧ dbC2.length = 5
    ∧ fileExists (dedup fsC2 dbC2 false).fs "/a/2.jpg" = false := by
  exact ⟨by decide, by decide, by decide, by decide, by decide⟩

/-- C3 counterexample: `dedup` does not return the pair
`(deleted_count, total_candidates)` — the Python function has no return
statement, so its value is `None` (here: `ret = none`) at this concrete
store. -/
theorem dedup_ret_none : (dedup fsC3 dbC3 false).ret = none := rfl

/-- C3 (amended): `dedup(db, match_time)` only prints its summary (its
return value is `None`); the printed denominator is the sum over the
qualifying duplicate groups of (group size - 1), and the printed numerator
— the count of `"True"` results — never exceeds it. -/
theorem dedup_prints_counts : ∀ (fs : FS) (db : Store) (mt : Bool),
    (dedup fs db mt).ret = none
    ∧ (dedup fs db mt).total
        = ((find db mt).map (fun d => d.items.length - 1)).sum
    ∧ (dedup fs db mt).deleted ≤ (dedup fs db mt).total := by
  intro fs db mt
  refine ⟨rfl, ?_, ?_⟩
  · show ((find db mt).foldl dedupGroup (fs, db, [])).2.2.length = _
    rw [foldl_dedupGroup_length]
    simp
  · exact List.countP_le_length _

/-- C4: the fingerprint `hash_file` computes is the concatenation, in
sorted lexical order, of the four perceptual-hash strings of the image at
0, 90, 180 and 270 degrees; consequently, for every hash function of the
pixel grid, the fingerprints of an image and of its three successive
90-degree rotations coincide. -/
theorem fingerprint_rotation_invariant : ∀ (p : PHash) (img : PImage),
    (∃ l : List String, l.Perm (phashes p img)
        ∧ l.Sorted strLeRel
        ∧ fingerprint p img = String.join l)
    ∧ fingerprint p img.rotate90 = fingerprint p img
    ∧ fingerprint p img.rotate90.rotate90 = fingerprint p img
    ∧ fingerprint p img.rotate90.rotate90.rotate90 = fingerprint p img := by
  intro p img
  refine ⟨⟨(phashes p img).insertionSort strLeRel,
      List.perm_insertionSort _ _, List.sorted_insertionSort _ _, rfl⟩, ?_, ?_, ?_⟩
  · exact fingerprint_rotate90 p img
  · exact (fingerprint_rotate90 p img.rotate90).trans (fingerprint_rotate90 p img)
  · exact ((fingerprint_rotate90 p img.rotate90.rotate90).trans
      (fingerprint_rotate90 p img.rotate90)).trans (fingerprint_rotate90 p img)

/-- C5: after any sequence of add/remove/clear operations the store holds
at most one record per path; inserting an existing path is a no-op; and for
a path already tracked, a further `add` neither hashes that path again (it
is filtered out before hashing) nor changes its record — exercised at the
end on a concrete filesystem where the second `add` does no hashing at
all. -/
theorem store_unique_paths : ∀ (p : PHash) (fs : FS),
    (∀ ops : List Op, (keys (runOps p fs ops)).Nodup)
    ∧ (∀ (db : Store) (fi ha : String) (sz : Nat) (is ct : String),
        in_database fi db = true → add_to_database fi ha sz is ct db = db)
    ∧ (∀ (db : Store) (q : String) (paths : List String),
        in_database q db = true →
          q ∉ (add p fs paths db).2
          ∧ lookup q (add p fs paths db).1 = lookup q db)
    ∧ add phC fsC5 ["/pics"] [] = (dbC5, ["/pics/a.jpg"])
    ∧ add phC fsC5 ["/pics"] dbC5 = (dbC5, []) := by
  intro p fs
  refine ⟨keys_nodup_runOps p fs, ?_, ?_, by decide, by decide⟩
  · intro db fi ha sz is ct h
    simp [add_to_database, h]
  · intro db q paths h
    obtain ⟨_, h2, h3⟩ :=
      add_tracked_invariant p fs paths h (List.not_mem_nil q)
    exact ⟨h3, h2⟩

/-- C6: a deletion candidate whose source file does not exist fails without
touching the filesystem or the store, and the batch continues: on a
four-record group whose second file is missing, `dedup` prints
`deleted 2/3` and the missing file's record is still stored. -/
theorem notfound_candidate_skipped :
    (∀ (cb : String → Store → Store) (fs : FS) (db : Store) (f : String),
        fileExists fs ("/" ++ f) = false →
          do_delete_picture cb fs db f = ("False", fs, db))
    ∧ (dedup fsC6 dbC6 false).deleted = 2
    ∧ (dedup fsC6 dbC6 false).total = 3
    ∧ rec0 "/pics/m.jpg" "H" "t" ∈ (dedup fsC6 dbC6 false).db := by
  refine ⟨?_, by decide, by decide, by decide⟩
  intro cb fs db f h
  exact do_delete_picture_err cb db f (moveFile_notFound _ h)

/-- C7: a file whose image cannot be decoded yields no `hash_file` result;
the parallel hasher's output contains exactly the successful results; and
`add` never creates a record for an unreadable file. -/
theorem unreadable_skipped : ∀ (p : PHash) (fs : FS),
    (∀ f : String, fs.openImg f = none → hash_file p fs f = none)
    ∧ (∀ (files : List String) (r : ImageRec),
        r ∈ hash_files_parallel p fs files ↔ ∃ f ∈ files, hash_file p fs f = some r)
    ∧ (∀ (db : Store) (paths : List String) (q : String),
        fs.openImg q = none →
          in_database q (add p fs paths db).1 = in_database q db) := by
  intro p fs
  refine ⟨?_, ?_, ?_⟩
  · intro f h
    simp [hash_file, h]
  · intro files r
    exact mem_hash_files_parallel
  · intro db paths q h
    exact add_unreadable_invariant p fs paths h

/-- C8: `find(db, match_time=False)` returns exactly the fingerprint groups
with more than one member — distinct fingerprints, each group carrying all
the records with its fingerprint, every multiply-held fingerprint present —
and on fingerprints `{A, A, A, B, C, C}` it returns two groups of sizes 3
and 2 and none for `B`. -/
theorem find_groups_exact :
    (∀ db : Store,
      ((find db false).map (fun d => d.hash)).Nodup
      ∧ (∀ d ∈ find db false,
          d.items = (db.filter (fun r => r.hash = d.hash)).map recItem
          ∧ 1 < d.items.length)
      ∧ (∀ h : String, 1 < (db.filter (fun r => r.hash = h)).length →
          ∃ d ∈ find db false, d.hash = h))
    ∧ (find dbC8 false).map (fun d => (d.hash, d.items.length)) = [("A", 3), ("C", 2)]
    ∧ (∀ d ∈ find dbC8 false, d.hash ≠ "B") := by
  refine ⟨?_, by decide, by decide⟩
  intro db
  have hfind : find db false
      = (group_by_hash db).filter (fun d => 1 < d.total) := rfl
  refine ⟨?_, ?_, ?_⟩
  · have hmap : (group_by_hash db).map (fun d => d.hash)
        = (db.map (fun r => r.hash)).dedup := by
      rw [group_by_hash, List.map_map]
      exact List.map_id _
    have hsub : ((find db false).map (fun d => d.hash)).Sublist
        ((group_by_hash db).map (fun d => d.hash)) := by
      rw [hfind]
      exact (List.filter_sublist _).map _
    rw [hmap] at hsub
    exact List.Nodup.sublist hsub (List.nodup_dedup _)
  · intro d hd
    rw [hfind, List.mem_filter] at hd
    obtain ⟨hmem, hpred⟩ := hd
    rw [group_by_hash, List.mem_map] at hmem
    obtain ⟨h, _, rfl⟩ := hmem
    refine ⟨rfl, ?_⟩
    simpa [groupFor] using hpred
  · intro h hlen
    have hne : db.filter (fun r => r.hash = h) ≠ [] := by
      intro hnil
      rw [hnil] at hlen
      simp at hlen
    obtain ⟨r, hr⟩ := List.exists_mem_of_ne_nil _ hne
    have hrdb : r ∈ db := List.mem_of_mem_filter hr
    have hrh : r.hash = h := by
      have := List.of_mem_filter hr
      simpa using this
    refine ⟨groupFor db h, ?_, rfl⟩
    rw [hfind, List.mem_filter]
    constructor
    · rw [group_by_hash, List.mem_map]
      exact ⟨h, List.mem_dedup.mpr (List.mem_map.mpr ⟨r, hrdb, hrh⟩), rfl⟩
    · simpa [groupFor] using hlen

/-- C9 counterexample: at a missing source file and at an I/O failure the
per-item delete returns the same value `"False"`: the returned result does
not distinguish the `NotFound` failure from the `IOError` failure (the move
outcomes shown are distinct). -/
theorem delete_failures_same_result :
    (do_delete_picture (fun pth s => remove_image pth s) fsC9a dbC9 "p/x.jpg").1 = "False"
    ∧ (do_delete_picture (fun pth s => remove_image pth s) fsC9b dbC9 "p/x.jpg").1 = "False"
    ∧ moveFile fsC9a "/p/x.jpg" (TRASH ++ basename "/p/x.jpg") = .error .notFound
    ∧ moveFile fsC9b "/p/x.jpg" (TRASH ++ basename "/p/x.jpg") = .error .ioError := by
  exact ⟨rfl, rfl, rfl, rfl⟩

/-- C9 (amended): the per-item delete returns the string `"True"` exactly
when the move into the trash succeeds and the string `"False"` on either
failure kind — success is distinguished from failure, but `NotFound` is not
distinguished from `IOError` in the returned value. -/
theorem delete_result_true_iff_ok :
    ∀ (cb : String → Store → Store) (fs : FS) (db : Store) (f : String),
    ((do_delete_picture cb fs db f).1 = "True"
      ∨ (do_delete_picture cb fs db f).1 = "False")
    ∧ ((do_delete_picture cb fs db f).1 = "True"
        ↔ (moveFile fs ("/" ++ f) (TRASH ++ basename ("/" ++ f))).isOk = true) := by
  intro cb fs db f
  cases hm : moveFile fs ("/" ++ f) (TRASH ++ basename ("/" ++ f)) with
  | ok fs' =>
    rw [do_delete_picture_ok cb db f hm]
    exact ⟨Or.inl rfl, ⟨fun _ => rfl, fun _ => rfl⟩⟩
  | error e =>
    rw [do_delete_picture_err cb db f hm]
    refine ⟨Or.inr rfl, ⟨fun hTF => ?_, fun hok => ?_⟩⟩
    · have hx : ("False" : String) = "True" := hTF
      exact absurd hx (by decide)
    · have hx : (false : Bool) = true := hok
      exact absurd hx (by decide)

/-- C10: `do_delete_picture` acts on `"/" + file_name`, never on the
caller's `file_name` itself: the moved path and the callback argument are
both slash-prefixed (and `"/" + f ≠ f`), so with the store-deletion
callback a record keyed by the caller-supplied path always survives —
concretely, deleting the absolute path `/a/2.jpg` moves the file and
reports `"True"` yet leaves the store unchanged. -/
theorem slash_prepended_key_mismatch :
    (∀ f : String, "/" ++ f ≠ f)
    ∧ (∀ (cb : String → Store → Store) (fs fs' : FS) (db : Store) (f : String),
        moveFile fs ("/" ++ f) (TRASH ++ basename ("/" ++ f)) = .ok fs' →
          do_delete_picture cb fs db f = ("True", fs', cb ("/" ++ f) db))
    ∧ (∀ (fs : FS) (db : Store) (f : String) (r : ImageRec),
        r ∈ db → r.path = f →
          r ∈ (do_delete_picture (fun pth s => remove_image pth s) fs db f).2.2)
    ∧ (do_delete_picture (fun pth s => remove_image pth s) fsC10 dbC10 "/a/2.jpg").1
        = "True"
    ∧ (do_delete_picture (fun pth s => remove_image pth s) fsC10 dbC10 "/a/2.jpg").2.2
        = dbC10 := by
  refine ⟨slash_ne, ?_, ?_, by decide, by decide⟩
  · intro cb fs fs' db f hm
    exact do_delete_picture_ok cb db f hm
  · intro fs db f r hr hpf
    cases hm : moveFile fs ("/" ++ f) (TRASH ++ basename ("/" ++ f)) with
    | ok fs' =>
      rw [do_delete_picture_ok _ db f hm]
      show r ∈ remove_image ("/" ++ f) db
      rw [remove_image]
      have hneg : ¬((fun s : ImageRec => decide (s.path = "/" ++ f)) r = true) := by
        simp only [decide_eq_true_eq]
        intro he
        rw [hpf] at he
        exact slash_ne f he.symm
      have hiff : r ∈ db.eraseP (fun s : ImageRec => decide (s.path = "/" ++ f)) ↔ r ∈ db :=
        List.mem_eraseP_of_neg hneg
      exact hiff.mpr hr
    | error e =>
      rw [do_delete_picture_err _ db f hm]
      exact hr

end DupImages
